import Mathlib

/-!
Verification development for the InSAR mobile processing service
(`src/python_service`).  The embedding models:

* the pure fallback phase unwrapper `SNAPHUUnwrapper._mcf_unwrap` and the
  simplified unwrapper `SARProcessor._mcf_unwrap` (snaphu_unwrapper.py,
  sar_algorithms.py);
* the SBAS network builder, connectivity check, design matrix and the
  per-pixel velocity inversion (sbas_inversion.py);
* the coherence estimator `SARProcessor._compute_coherence` and the
  cross-correlation offset estimator `SARProcessor._estimate_offset`
  (sar_algorithms.py).

Phase convention: the Python code stores phases in radians; every phase
quantity here is measured in units of pi, so the wrapped-phase interval
(-pi, pi] becomes (-1, 1] and "multiples of 2*pi" become even integers.
This makes `atan2(sin x, cos x)` an exact rational operation and keeps
every definition computable.  Rasters are total functions from natural
row/column indices; entries outside the explicitly passed height/width
are never consulted by the definitions.
-/

namespace InSAR

/-- Principal-value wrap.  The source uses `np.angle(np.exp(1j * x))`,
which reduces a phase `x` (radians) into `(-pi, pi]`.  In units of pi this
is reduction of `x` into `(-1, 1]` by subtracting the even integer
`2 * ceil(x / 2 - 1 / 2)`. -/
def wrap (x : ℚ) : ℚ := x - 2 * (⌈x / 2 - 1 / 2⌉ : ℤ)

/-- Round-half-to-even, the rounding rule of `np.round`. -/
def nround (x : ℚ) : ℤ :=
  if x - ⌊x⌋ < 1 / 2 then ⌊x⌋
  else if x - ⌊x⌋ > 1 / 2 then ⌊x⌋ + 1
  else if Even (⌊x⌋ : ℤ) then ⌊x⌋ else ⌊x⌋ + 1

/-- Two phases agree modulo one full cycle (an even number of pi units). -/
def SameCycle (x y : ℚ) : Prop := ∃ k : ℤ, x - y = 2 * k

theorem sameCycle_refl (x : ℚ) : SameCycle x x := ⟨0, by ring⟩

theorem sameCycle_trans {x y z : ℚ} (h : SameCycle x y) (h2 : SameCycle y z) :
    SameCycle x z := by
  obtain ⟨k, hk⟩ := h; obtain ⟨l, hl⟩ := h2
  exact ⟨k + l, by push_cast; linarith⟩

theorem sameCycle_add {a b c d : ℚ} (h : SameCycle a b) (h2 : SameCycle c d) :
    SameCycle (a + c) (b + d) := by
  obtain ⟨k, hk⟩ := h; obtain ⟨l, hl⟩ := h2
  exact ⟨k + l, by push_cast; linarith⟩

theorem sameCycle_add_even (x : ℚ) (k : ℤ) : SameCycle (x + 2 * k) x :=
  ⟨k, by ring⟩

theorem wrap_add_two_int (x : ℚ) (k : ℤ) : wrap (x + 2 * k) = wrap x := by
  unfold wrap
  have h : (x + 2 * (k : ℚ)) / 2 - 1 / 2 = (x / 2 - 1 / 2) + k := by ring
  rw [h, Int.ceil_add_int]
  push_cast
  ring

theorem wrap_sameCycle (x : ℚ) : SameCycle (wrap x) x :=
  ⟨-⌈x / 2 - 1 / 2⌉, by unfold wrap; push_cast; ring⟩

theorem wrap_congr {x y : ℚ} (h : SameCycle x y) : wrap x = wrap y := by
  obtain ⟨k, hk⟩ := h
  have hx : x = y + 2 * k := by linarith
  rw [hx, wrap_add_two_int]

theorem wrap_eq_self {x : ℚ} (h1 : -1 < x) (h2 : x ≤ 1) : wrap x = x := by
  have hc : ⌈x / 2 - 1 / 2⌉ = 0 := by
    rw [Int.ceil_eq_zero_iff, Set.mem_Ioc]
    constructor <;> linarith
  unfold wrap
  rw [hc]
  push_cast
  ring

/-- Value of `SameCycle` chained through `wrap` on a difference. -/
theorem sameCycle_wrap_sub (a b : ℚ) : SameCycle (wrap (a - b)) (a - b) :=
  wrap_sameCycle _

end InSAR

namespace InSAR

/-!
Fallback unwrapper of `snaphu_unwrapper.py` (`SNAPHUUnwrapper._mcf_unwrap`).
The source computes, for a wrapped raster `phase` and a coherence raster:

* `dx[i, j] = wrap(phase[i, j] - phase[i, j-1])` for `j >= 1`, else 0,
  `dy[i, j] = wrap(phase[i, j] - phase[i-1, j])` for `i >= 1`, else 0;
* row-wise integration `u[i, j] = u[i, j-1] + dx[i, j]` from `u[i, 0] = 0`;
* a column sweep replacing `u[i, j]` by
  `u[i, j] + 2 * pi * round((dy[i, j] - (u[i, j] - u[i-1, j])) / (2 * pi))`,
  where `u[i-1, j]` is the already adjusted value;
* a blend with a 3x3 coherence-weighted reflect-padded boxcar average.
-/

/-- Row-direction wrapped gradient `dx` (zero in column 0, as in the source
where `dx[:, 0]` keeps its `np.zeros_like` value). -/
def dxA (phase : ℕ → ℕ → ℚ) (i j : ℕ) : ℚ :=
  if j = 0 then 0 else wrap (phase i j - phase i (j - 1))

/-- Column-direction wrapped gradient `dy` (zero in row 0). -/
def dyA (phase : ℕ → ℕ → ℚ) (i j : ℕ) : ℚ :=
  if i = 0 then 0 else wrap (phase i j - phase (i - 1) j)

/-- Row-wise integration of `dx` starting from 0 in column 0:
`unwrapped[i, j] = unwrapped[i, j-1] + dx[i, j]`. -/
def rowInt (phase : ℕ → ℕ → ℚ) (i : ℕ) : ℕ → ℚ
  | 0 => 0
  | j + 1 => rowInt phase i j + dxA phase i (j + 1)

/-- Column-wise adjustment sweep.  `colAdj phase j i` is the value of
`unwrapped[i, j]` after the second loop of `_mcf_unwrap`: row 0 keeps its
row-integrated value, and each later row adds the rounded multiple of a
full cycle that best matches the wrapped column gradient against the
already adjusted previous row. -/
def colAdj (phase : ℕ → ℕ → ℚ) (j : ℕ) : ℕ → ℚ
  | 0 => rowInt phase 0 j
  | i + 1 =>
      rowInt phase (i + 1) j +
        2 * nround ((dyA phase (i + 1) j - (rowInt phase (i + 1) j - colAdj phase j i)) / 2)

/-- Integrated (pre-blend) unwrapped estimate: steps 1-3 of the fallback. -/
def mcfIntegrate (phase : ℕ → ℕ → ℚ) (i j : ℕ) : ℚ := colAdj phase j i

/-- Reflect ("symmetric") boundary indexing of `scipy.ndimage` mode
`reflect`: the sequence `d c b a | a b c d | d c b a` with period `2n`. -/
def reflectIdx (n : ℕ) (i : ℤ) : ℕ :=
  if n = 0 then 0
  else
    let j := i % (2 * n)
    if j < n then j.toNat else (2 * n - 1 - j).toNat

/-- Mean over the reflect-padded 3x3 neighbourhood: the effect of
`ndimage.convolve(f, np.ones((3, 3)) / 9)` at one pixel. -/
def conv3 (h w : ℕ) (f : ℕ → ℕ → ℚ) (i j : ℕ) : ℚ :=
  (∑ a ∈ Finset.range 3, ∑ b ∈ Finset.range 3,
      f (reflectIdx h ((i : ℤ) + a - 1)) (reflectIdx w ((j : ℤ) + b - 1))) / 9

/-- Coherence weight `weight = coherence ** 2`. -/
def weightA (coh : ℕ → ℕ → ℚ) (i j : ℕ) : ℚ := (coh i j) ^ 2

/-- Coherence-weighted smoothed estimate
`ndimage.convolve(unwrapped * weight, kernel) / ndimage.convolve(weight, kernel)`.
Rational division returns 0 on a zero denominator, where NumPy would
produce a NaN from `0 / 0`; theorems that depend on this pixel value carry
a nonzero-denominator hypothesis so the model and the float code agree. -/
def mcfSmooth (phase coh : ℕ → ℕ → ℚ) (h w i j : ℕ) : ℚ :=
  conv3 h w (fun a b => mcfIntegrate phase a b * weightA coh a b) i j /
    conv3 h w (weightA coh) i j

/-- Final output of `SNAPHUUnwrapper._mcf_unwrap`:
`unwrapped * (1 - weight) + unwrapped_smooth * weight`. -/
def mcfUnwrap (phase coh : ℕ → ℕ → ℚ) (h w i j : ℕ) : ℚ :=
  mcfIntegrate phase i j * (1 - weightA coh i j) +
    mcfSmooth phase coh h w i j * weightA coh i j

/-- Simplified unwrapper `SARProcessor._mcf_unwrap` (sar_algorithms.py):
`unwrapped[i, j] = unwrapped[i-1, j] + wrap(phase[i, j] - phase[i-1, j])`
for `i, j >= 1` over a zero-initialised array (row 0 and column 0 stay 0);
the computed residues are never used.  Coherence is ignored entirely. -/
def sarMcfUnwrap (phase : ℕ → ℕ → ℚ) : ℕ → ℕ → ℚ
  | 0, _ => 0
  | i + 1, j => if j = 0 then 0 else sarMcfUnwrap phase i j + wrap (phase (i + 1) j - phase i j)

theorem rowInt_sameCycle (phase : ℕ → ℕ → ℚ) (i j : ℕ) :
    SameCycle (rowInt phase i j) (phase i j - phase i 0) := by
  induction j with
  | zero => simpa [rowInt] using sameCycle_refl (0 : ℚ)
  | succ j ih =>
      have hdx : SameCycle (dxA phase i (j + 1)) (phase i (j + 1) - phase i j) := by
        simpa [dxA] using sameCycle_wrap_sub (phase i (j + 1)) (phase i j)
      have := sameCycle_add ih hdx
      simpa [rowInt, sub_add_sub_cancel] using this

theorem colAdj_sameCycle (phase : ℕ → ℕ → ℚ) (j i : ℕ) :
    SameCycle (colAdj phase j i) (phase i j - phase i 0) := by
  induction i with
  | zero => simpa [colAdj] using rowInt_sameCycle phase 0 j
  | succ i _ =>
      have hbase := rowInt_sameCycle phase (i + 1) j
      have hstep :
          SameCycle (colAdj phase j (i + 1)) (rowInt phase (i + 1) j) := by
        refine ⟨nround ((dyA phase (i + 1) j -
            (rowInt phase (i + 1) j - colAdj phase j i)) / 2), ?_⟩
        simp [colAdj]
      exact sameCycle_trans hstep hbase

end InSAR

namespace InSAR

theorem wrap_zero : wrap (0 : ℚ) = 0 := wrap_eq_self (by norm_num) (by norm_num)

theorem wrap_half : wrap (1 / 2 : ℚ) = 1 / 2 := wrap_eq_self (by norm_num) (by norm_num)

theorem reflectIdx_one (i : ℤ) : reflectIdx 1 i = 0 := by
  have hj : i % 2 = 0 ∨ i % 2 = 1 := by omega
  rcases hj with h | h <;> simp [reflectIdx, h]

/-- Expansion of the 3x3 reflect-mean on a single-pixel raster: all nine
reflected samples coincide with the pixel itself. -/
theorem conv3_one_one (f : ℕ → ℕ → ℚ) : conv3 1 1 f 0 0 = f 0 0 := by
  simp [conv3, Finset.sum_range_succ, reflectIdx_one]
  ring

/-- Expansion of the 3x3 reflect-mean at pixel (0, 1) of a 1x2 raster:
three copies of column 0 and six of column 1. -/
theorem conv3_one_two (f : ℕ → ℕ → ℚ) :
    conv3 1 2 f 0 1 = (3 * f 0 0 + 6 * f 0 1) / 9 := by
  have e0 : reflectIdx 2 0 = 0 := by decide
  have e1 : reflectIdx 2 1 = 1 := by decide
  have e2 : reflectIdx 2 2 = 1 := by decide
  simp [conv3, Finset.sum_range_succ, reflectIdx_one]
  norm_num [e0, e1, e2]
  ring

/-- Test raster: a 1x2 wrapped-phase row with anchor 0 and value pi/2
(phase unit convention: 1/2 stands for pi/2). -/
def phaseC2 : ℕ → ℕ → ℚ := fun _ j => if j = 0 then 0 else 1 / 2

/-- Test coherence: full coherence at the anchor pixel, zero elsewhere. -/
def cohC2 : ℕ → ℕ → ℚ := fun _ j => if j = 0 then 1 else 0

theorem mcfIntegrate_phaseC2_zero : mcfIntegrate phaseC2 0 0 = 0 := by
  simp [mcfIntegrate, colAdj, rowInt, phaseC2]

theorem mcfIntegrate_phaseC2_one : mcfIntegrate phaseC2 0 1 = 1 / 2 := by
  simp [mcfIntegrate, colAdj, rowInt, dxA, phaseC2]
  exact wrap_eq_self (by norm_num) (by norm_num)

theorem mcfSmooth_phaseC2 : mcfSmooth phaseC2 cohC2 1 2 0 1 = 0 := by
  rw [mcfSmooth, conv3_one_two, conv3_one_two]
  rw [mcfIntegrate_phaseC2_zero, mcfIntegrate_phaseC2_one]
  norm_num [weightA, cohC2]

theorem mcfUnwrap_phaseC2 : mcfUnwrap phaseC2 cohC2 1 2 0 1 = 1 / 2 := by
  rw [mcfUnwrap, mcfSmooth_phaseC2, mcfIntegrate_phaseC2_one]
  norm_num [weightA, cohC2]

end InSAR

namespace InSAR

/-- C1 (counterexample).  The round-trip law fails on a noise-free synthetic
wrapped raster: for the constant raster with value pi/2 (all entries in
(-pi, pi]) and full coherence, both fallback unwrappers anchor their
integration at 0, so re-wrapping the unwrapped output yields 0, not pi/2,
already on a 1x1 raster. -/
theorem c1_roundtrip_counterexample :
    wrap (mcfUnwrap (fun _ _ => 1 / 2) (fun _ _ => 1) 1 1 0 0) ≠ (1 : ℚ) / 2 ∧
    wrap (sarMcfUnwrap (fun _ _ => 1 / 2) 0 0) ≠ (1 : ℚ) / 2 := by
  have hint : mcfIntegrate (fun _ _ => (1 : ℚ) / 2) 0 0 = 0 := by
    simp [mcfIntegrate, colAdj, rowInt]
  have hu : mcfUnwrap (fun _ _ => (1 : ℚ) / 2) (fun _ _ => 1) 1 1 0 0 = 0 := by
    rw [mcfUnwrap, mcfSmooth, conv3_one_one, conv3_one_one, hint]
    norm_num [weightA]
  have hs : sarMcfUnwrap (fun _ _ => (1 : ℚ) / 2) 0 0 = 0 := by
    simp [sarMcfUnwrap]
  rw [hu, hs, wrap_zero]
  norm_num

/-- C1 (amended).  The integrated estimate is congruent modulo 2*pi to
`phase[i, j] - phase[i, 0]` (each row is anchored at its own first pixel),
so the round-trip law holds at a pixel exactly when its row anchor is a
multiple of 2*pi and the coherence blend leaves the value alone: at every
pixel with zero coherence (blend keeps the raw integration; the nonzero
smoothing denominator rules out the NumPy 0/0 NaN) in a row whose first
wrapped value is zero, unwrapping then re-wrapping reproduces the input. -/
theorem c1_roundtrip_amended (phase coh : ℕ → ℕ → ℚ) (h w i j : ℕ)
    (hlo : -1 < phase i j) (hhi : phase i j ≤ 1)
    (hanchor : phase i 0 = 0) (hcoh : coh i j = 0)
    (_hden : conv3 h w (weightA coh) i j ≠ 0) :
    wrap (mcfUnwrap phase coh h w i j) = phase i j := by
  have hint : SameCycle (mcfIntegrate phase i j) (phase i j) := by
    have hsc := colAdj_sameCycle phase j i
    simpa [mcfIntegrate, hanchor] using hsc
  have hfinal : mcfUnwrap phase coh h w i j = mcfIntegrate phase i j := by
    simp [mcfUnwrap, weightA, hcoh]
  rw [hfinal, wrap_congr hint, wrap_eq_self hlo hhi]

/-- C1 (witness).  Concrete instance of the amended round-trip law on the
1x2 raster `[0, pi/2]` with coherence `[1, 0]` at pixel (0, 1). -/
theorem c1_roundtrip_amended_witness :
    wrap (mcfUnwrap phaseC2 cohC2 1 2 0 1) = phaseC2 0 1 :=
  c1_roundtrip_amended phaseC2 cohC2 1 2 0 1 (by norm_num [phaseC2])
    (by norm_num [phaseC2]) (by norm_num [phaseC2]) (by norm_num [cohC2])
    (by rw [conv3_one_two]; norm_num [weightA, cohC2])

/-- C2 (counterexample).  In the final blend
`unwrapped * (1 - weight) + unwrapped_smooth * weight` with
`weight = coherence ** 2`, a zero-coherence pixel keeps the raw integrated
value and is not pulled toward the smoothed estimate: on the raster
`[0, pi/2]` with coherence `[1, 0]`, pixel (0, 1) has smoothed estimate 0
but final value 1/2 (equal to the raw integration), refuting the claimed
direction of the blend. -/
theorem c2_blend_counterexample :
    cohC2 0 1 = 0 ∧
    mcfUnwrap phaseC2 cohC2 1 2 0 1 = mcfIntegrate phaseC2 0 1 ∧
    mcfIntegrate phaseC2 0 1 = 1 / 2 ∧
    mcfSmooth phaseC2 cohC2 1 2 0 1 = 0 ∧
    mcfUnwrap phaseC2 cohC2 1 2 0 1 ≠ mcfSmooth phaseC2 cohC2 1 2 0 1 := by
  refine ⟨rfl, ?_, mcfIntegrate_phaseC2_one, mcfSmooth_phaseC2, ?_⟩
  · rw [mcfUnwrap_phaseC2, mcfIntegrate_phaseC2_one]
  · rw [mcfUnwrap_phaseC2, mcfSmooth_phaseC2]
    norm_num

/-- C2 (amended).  The final unwrapped value blends the raw integrated
estimate with the 3x3 coherence-weighted neighbourhood average, the weight
given to the smoothed estimate being the pixel coherence squared — so
HIGH-coherence pixels are pulled toward the smoothed estimate while
LOW-coherence pixels retain the direct integration result (the opposite
orientation of the claim): at weight 0 the output is exactly the raw
integration, at weight 1 exactly the smoothed estimate. -/
theorem c2_blend_amended (phase coh : ℕ → ℕ → ℚ) (h w i j : ℕ) :
    mcfUnwrap phase coh h w i j =
      mcfIntegrate phase i j * (1 - weightA coh i j) +
        mcfSmooth phase coh h w i j * weightA coh i j ∧
    (coh i j = 0 → mcfUnwrap phase coh h w i j = mcfIntegrate phase i j) ∧
    (coh i j = 1 → mcfUnwrap phase coh h w i j = mcfSmooth phase coh h w i j) := by
  refine ⟨rfl, ?_, ?_⟩ <;> intro hc <;> simp [mcfUnwrap, weightA, hc]

/-- C2 (witness).  The amended blend law applied at the zero-coherence
pixel (0, 1) of the test rasters. -/
theorem c2_blend_amended_witness :
    mcfUnwrap phaseC2 cohC2 1 2 0 1 = mcfIntegrate phaseC2 0 1 :=
  (c2_blend_amended phaseC2 cohC2 1 2 0 1).2.1 rfl

end InSAR

namespace InSAR

/-!
SBAS network builder (`sbas_inversion.py`).  `SBASNetwork.__init__` sorts
the parsed acquisition dates; a date is modelled by its day number (an
integer), so `datetime` subtraction `.days` is integer subtraction.
`build_network` loops over all `i < j`, keeps a pair when its temporal
baseline does not exceed `max_temporal_baseline` and its perpendicular
baseline does not exceed `max_perpendicular_baseline`, recording both
baselines.  The perpendicular baseline is drawn by
`np.random.uniform(0, max_perpendicular_baseline)` — always within the
threshold, so the second filter never fires; the model abstracts the
baseline source as a function parameter, and network theorems assume only
the bound that `np.random.uniform` guarantees.
-/

/-- Accepted interferometric pair: indices into the sorted date list plus
the recorded baselines (`master_idx`, `slave_idx`, `temporal_baseline`,
`perpendicular_baseline`). -/
structure NPair where
  master : ℕ
  slave : ℕ
  temporal : ℤ
  perp : ℚ
  deriving DecidableEq

/-- Pair list built by `SBASNetwork.build_network`: for each `i`, all
`j` in `range(i+1, n)`, filtered by the two baseline thresholds. -/
def buildPairs (dates : List ℤ) (maxT : ℤ) (maxP : ℚ) (perp : ℕ → ℕ → ℚ) :
    List NPair :=
  ((List.range dates.length).map fun i =>
    ((List.range dates.length).filter fun j => i < j).filterMap fun j =>
      if dates.getD j 0 - dates.getD i 0 > maxT then none
      else if perp i j > maxP then none
      else some ⟨i, j, dates.getD j 0 - dates.getD i 0, perp i j⟩).flatten

/-- Undirected adjacency relation of `_check_connectivity`: the source
sets `adj[i, j] = adj[j, i] = 1` for every accepted pair. -/
def adjOf (pairs : List NPair) (x y : ℕ) : Bool :=
  pairs.any fun p => (p.master == x && p.slave == y) || (p.master == y && p.slave == x)

/-- Fueled breadth-first traversal: pop the queue head, mark and enqueue
every unvisited neighbour in index order, repeat.  Each node is enqueued
at most once (it is marked visited on enqueue), so any fuel of at least
`n` pops exhausts the queue; the surplus fuel is harmless. -/
def bfsGo (n : ℕ) (adj : ℕ → ℕ → Bool) : ℕ → List Bool → List ℕ → List Bool
  | 0, visited, _ => visited
  | _ + 1, visited, [] => visited
  | fuel + 1, visited, node :: queue =>
      let st := (List.range n).foldl
        (fun st nb =>
          if adj node nb && !(st.1.getD nb false) then (st.1.set nb true, st.2 ++ [nb])
          else st)
        (visited, queue)
      bfsGo n adj fuel st.1 st.2

/-- Visited vector of the BFS of `_check_connectivity`, started from date
index 0 with node 0 premarked. -/
def bfsVisited (n : ℕ) (adj : ℕ → ℕ → Bool) : List Bool :=
  bfsGo n adj (n * n + 1) ((List.replicate n false).set 0 true) [0]

/-- Connectivity flag `is_connected = np.all(visited)`. -/
def isConnected (n : ℕ) (pairs : List NPair) : Bool :=
  (bfsVisited n (adjOf pairs)).all fun b => b

/-- Pointwise update of one row entry, the effect of `A[k, m] = v`. -/
def updRow (row : ℕ → ℤ) (m : ℕ) (v : ℤ) : ℕ → ℤ := fun x => if x = m then v else row x

/-- Row `k` of the design matrix as built by `get_design_matrix`: starting
from the zero row, write `(dates[m+1] - dates[m]).days` into each column
`m` of `range(i, j)`. -/
def designRow (dates : List ℤ) (p : NPair) : ℕ → ℤ :=
  (List.range' p.master (p.slave - p.master)).foldl
    (fun row m => updRow row m (dates.getD (m + 1) 0 - dates.getD m 0)) fun _ => 0

/-- Design matrix `A` of shape `n_pairs x (n_dates - 1)`: row `k` is built
from pair `k`; indices outside the allocated `np.zeros` block read 0. -/
def designMatrix (dates : List ℤ) (pairs : List NPair) (k m : ℕ) : ℤ :=
  if k < pairs.length then designRow dates (pairs.getD k ⟨0, 0, 0, 0⟩) m else 0

/-- Day numbers of the dates 2023-01-01, 2023-02-01, 2023-03-01 relative
to the first: the gaps are 31 days (January) and 28 days (February 2023),
so `datetime` subtraction yields 31, 59 and 28 days for the three pairs. -/
def dates1 : List ℤ := [0, 31, 59]

/-- Degenerate perpendicular-baseline source used to instantiate witness
statements (any bounded source works). -/
def perp0 : ℕ → ℕ → ℚ := fun _ _ => 0

theorem foldl_updRow_range (g : ℕ → ℤ) :
    ∀ (len i : ℕ) (row : ℕ → ℤ) (m : ℕ),
      ((List.range' i len).foldl (fun r x => updRow r x (g x)) row) m
        = if i ≤ m ∧ m < i + len then g m else row m := by
  intro len
  induction len with
  | zero =>
      intro i row m
      have hc : ¬(i ≤ m ∧ m < i + 0) := by omega
      rw [if_neg hc]
      simp
  | succ len ih =>
      intro i row m
      rw [List.range'_succ, List.foldl_cons, ih]
      simp only [updRow]
      by_cases hm : m = i
      · have h1 : ¬(i + 1 ≤ m ∧ m < i + 1 + len) := by omega
        have h2 : i ≤ m ∧ m < i + (len + 1) := by omega
        simp [h1, h2, hm]
      · by_cases hcase : i + 1 ≤ m ∧ m < i + 1 + len
        · have h2 : i ≤ m ∧ m < i + (len + 1) := by omega
          simp [hcase, h2]
        · have h2 : ¬(i ≤ m ∧ m < i + (len + 1)) := by omega
          simp [hcase, h2, hm]

theorem designRow_eq (dates : List ℤ) (p : NPair) (hms : p.master ≤ p.slave) (m : ℕ) :
    designRow dates p m =
      if p.master ≤ m ∧ m < p.slave
      then dates.getD (m + 1) 0 - dates.getD m 0 else 0 := by
  rw [designRow, foldl_updRow_range]
  have : p.master + (p.slave - p.master) = p.slave := by omega
  rw [this]

theorem mem_buildPairs {dates : List ℤ} {maxT : ℤ} {maxP : ℚ}
    {perp : ℕ → ℕ → ℚ} {p : NPair}
    (hp : p ∈ buildPairs dates maxT maxP perp) :
    p.master < p.slave ∧ p.slave < dates.length ∧
      p.temporal = dates.getD p.slave 0 - dates.getD p.master 0 ∧
      p.temporal ≤ maxT ∧ p.perp ≤ maxP := by
  simp only [buildPairs, List.mem_flatten, List.mem_map] at hp
  obtain ⟨l, ⟨i, hi, hl⟩, hpl⟩ := hp
  subst hl
  simp only [List.mem_filterMap, List.mem_filter, List.mem_range,
    decide_eq_true_eq] at hpl
  obtain ⟨j, ⟨hj, hij⟩, hsome⟩ := hpl
  split_ifs at hsome with h1 h2
  · rw [Option.some_inj] at hsome
    rcases hsome with rfl
    exact ⟨hij, hj, rfl, not_lt.mp h1, le_of_not_lt h2⟩

end InSAR

namespace InSAR

theorem buildPairs_dates1_all (perp : ℕ → ℕ → ℚ) (hp : ∀ i j, perp i j ≤ 150) :
    buildPairs dates1 365 150 perp =
      [⟨0, 1, 31, perp 0 1⟩, ⟨0, 2, 59, perp 0 2⟩, ⟨1, 2, 28, perp 1 2⟩] := by
  have h01 : ¬(perp 0 1 > 150) := not_lt.mpr (hp 0 1)
  have h02 : ¬(perp 0 2 > 150) := not_lt.mpr (hp 0 2)
  have h12 : ¬(perp 1 2 > 150) := not_lt.mpr (hp 1 2)
  have hr : List.range dates1.length = [0, 1, 2] := by decide
  rw [buildPairs, hr]
  simp only [List.map_cons, List.map_nil, List.filter_cons, List.filter_nil,
    List.filterMap_cons, List.filterMap_nil, List.flatten_cons, List.flatten_nil]
  norm_num [dates1, h01, h02, h12, List.filterMap_cons, List.getElem?_cons_zero,
    List.getElem?_cons_succ]

theorem adjOf_map (ps : List NPair) (x y : ℕ) :
    adjOf ps x y =
      (ps.map fun p => (p.master, p.slave)).any
        fun q => (q.1 == x && q.2 == y) || (q.1 == y && q.2 == x) := by
  rw [adjOf]
  induction ps with
  | nil => rfl
  | cons p t ih =>
      simp only [List.any_cons, List.map_cons]
      rw [ih]

/-- Connectivity reads only the index skeleton of the pair list, so lists
with the same `(master, slave)` projection have the same BFS outcome. -/
theorem isConnected_of_map (n : ℕ) (qs : List NPair) {ps : List NPair}
    (h : ps.map (fun p => (p.master, p.slave)) = qs.map fun p => (p.master, p.slave))
    (hq : isConnected n qs = true) : isConnected n ps = true := by
  have ha : adjOf ps = adjOf qs := by
    funext x y
    rw [adjOf_map, adjOf_map, h]
  rw [isConnected, bfsVisited, ha, ← bfsVisited, ← isConnected]
  exact hq

/-- C4.  Building the network from 2023-01-01, 2023-02-01, 2023-03-01 with
thresholds admitting every pair (365 days, 150 m; the random perpendicular
baseline of the source is abstracted as any source bounded by the
threshold, which `np.random.uniform(0, 150)` guarantees) yields exactly
the pairs (0,1), (0,2), (1,2), and the BFS connectivity check reports
`is_connected = true`. -/
theorem c4_network (perp : ℕ → ℕ → ℚ) (hp : ∀ i j, perp i j ≤ 150) :
    (buildPairs dates1 365 150 perp).map (fun p => (p.master, p.slave)) =
      [(0, 1), (0, 2), (1, 2)] ∧
    isConnected 3 (buildPairs dates1 365 150 perp) = true := by
  rw [buildPairs_dates1_all perp hp]
  refine ⟨rfl, ?_⟩
  apply isConnected_of_map 3 [⟨0, 1, 31, 0⟩, ⟨0, 2, 59, 0⟩, ⟨1, 2, 28, 0⟩]
  · rfl
  · decide

/-- C4 (witness).  The network theorem instantiated with the degenerate
baseline source. -/
theorem c4_network_witness :
    (buildPairs dates1 365 150 perp0).map (fun p => (p.master, p.slave)) =
      [(0, 1), (0, 2), (1, 2)] ∧
    isConnected 3 (buildPairs dates1 365 150 perp0) = true :=
  c4_network perp0 fun _ _ => by norm_num [perp0]

/-- C5 (counterexample).  With `max_temporal_baseline_days = 20` on the
dates 2023-01-01, 2023-02-01, 2023-03-01 the pair gaps are 31, 59 and 28
days, all above the threshold, so the builder produces 0 pairs — not the
claimed 2 — and the connectivity check reports `is_connected = false`. -/
theorem c5_threshold_counterexample :
    buildPairs dates1 20 150 perp0 = [] ∧
    (buildPairs dates1 20 150 perp0).length ≠ 2 ∧
    isConnected 3 (buildPairs dates1 20 150 perp0) = false := by
  refine ⟨by decide, by decide, by decide⟩

/-- C5 (amended).  On these dates no pair has a gap of at most 20 days, so
threshold 20 yields the empty network and a disconnected report; the
builder keeps exactly the pairs within the threshold, so the smallest
threshold admitting 2 pairs is 31 days, which keeps exactly the
consecutive pairs (0,1) and (1,2) and reports `is_connected = true`
because those two pairs alone span all 3 dates. -/
theorem c5_threshold_amended (perp : ℕ → ℕ → ℚ) (hp : ∀ i j, perp i j ≤ 150) :
    (buildPairs dates1 20 150 perp = [] ∧
      isConnected 3 (buildPairs dates1 20 150 perp) = false) ∧
    ((buildPairs dates1 31 150 perp).map (fun p => (p.master, p.slave)) =
        [(0, 1), (1, 2)] ∧
      isConnected 3 (buildPairs dates1 31 150 perp) = true) := by
  have h01 : ¬(perp 0 1 > 150) := not_lt.mpr (hp 0 1)
  have h12 : ¬(perp 1 2 > 150) := not_lt.mpr (hp 1 2)
  have hr : List.range dates1.length = [0, 1, 2] := by decide
  have hb20 : buildPairs dates1 20 150 perp = [] := by
    rw [buildPairs, hr]
    simp only [List.map_cons, List.map_nil, List.filter_cons, List.filter_nil,
      List.filterMap_cons, List.filterMap_nil, List.flatten_cons, List.flatten_nil]
    norm_num [dates1, List.filterMap_cons, List.getElem?_cons_zero,
      List.getElem?_cons_succ]
  have hb31 : buildPairs dates1 31 150 perp =
      [⟨0, 1, 31, perp 0 1⟩, ⟨1, 2, 28, perp 1 2⟩] := by
    rw [buildPairs, hr]
    simp only [List.map_cons, List.map_nil, List.filter_cons, List.filter_nil,
      List.filterMap_cons, List.filterMap_nil, List.flatten_cons, List.flatten_nil]
    norm_num [dates1, h01, h12, List.filterMap_cons, List.getElem?_cons_zero,
      List.getElem?_cons_succ]
  refine ⟨⟨hb20, by rw [hb20]; decide⟩, ?_⟩
  rw [hb31]
  refine ⟨rfl, ?_⟩
  apply isConnected_of_map 3 [⟨0, 1, 31, 0⟩, ⟨1, 2, 28, 0⟩]
  · rfl
  · decide

/-- C5 (witness).  The amended threshold behaviour instantiated with the
degenerate baseline source. -/
theorem c5_threshold_amended_witness :
    (buildPairs dates1 20 150 perp0 = [] ∧
      isConnected 3 (buildPairs dates1 20 150 perp0) = false) ∧
    ((buildPairs dates1 31 150 perp0).map (fun p => (p.master, p.slave)) =
        [(0, 1), (1, 2)] ∧
      isConnected 3 (buildPairs dates1 31 150 perp0) = true) :=
  c5_threshold_amended perp0 fun _ _ => by norm_num [perp0]

end InSAR


namespace InSAR

theorem getD_eq_get {l : List ℤ} {n : ℕ} (h : n < l.length) :
    l.getD n 0 = l.get ⟨n, h⟩ := by
  rw [List.getD_eq_getElem?_getD, List.getElem?_eq_getElem h, Option.getD_some,
    List.get_eq_getElem]

theorem getD_mono_of_sorted {dates : List ℤ} (hs : dates.Sorted (· ≤ ·))
    {a b : ℕ} (hab : a ≤ b) (hb : b < dates.length) :
    dates.getD a 0 ≤ dates.getD b 0 := by
  have ha : a < dates.length := lt_of_le_of_lt hab hb
  rcases lt_or_eq_of_le hab with hlt | heq
  · rw [getD_eq_get ha, getD_eq_get hb]
    exact hs.rel_get_of_lt hlt
  · subst heq
    exact le_refl _

theorem getD_mem_pairs {ps : List NPair} {k : ℕ} (hk : k < ps.length) (d : NPair) :
    ps.getD k d ∈ ps := by
  rw [List.getD_eq_getElem?_getD, List.getElem?_eq_getElem hk, Option.getD_some]
  exact List.getElem_mem hk

/-- C6.  Design-matrix law of `get_design_matrix` over any built network:
the matrix has one row per accepted pair and `n_dates - 1` columns, and
row `k` for the pair `(i, j)` carries the interval duration
`dates[m+1] - dates[m]` in every column `i <= m < j` and zero elsewhere. -/
theorem c6_design_matrix (dates : List ℤ) (maxT : ℤ) (maxP : ℚ)
    (perp : ℕ → ℕ → ℚ) (k m : ℕ)
    (hk : k < (buildPairs dates maxT maxP perp).length)
    (_hm : m < dates.length - 1) :
    designMatrix dates (buildPairs dates maxT maxP perp) k m =
      if ((buildPairs dates maxT maxP perp).getD k ⟨0, 0, 0, 0⟩).master ≤ m ∧
          m < ((buildPairs dates maxT maxP perp).getD k ⟨0, 0, 0, 0⟩).slave
      then dates.getD (m + 1) 0 - dates.getD m 0 else 0 := by
  obtain ⟨hms, _, _, _, _⟩ := mem_buildPairs (getD_mem_pairs hk ⟨0, 0, 0, 0⟩)
  rw [designMatrix, if_pos hk, designRow_eq _ _ (le_of_lt hms)]

/-- C6 (witness).  Row 1 (the pair (0, 2)) of the design matrix of the
3-date network evaluated at column 0. -/
theorem c6_design_matrix_witness :
    designMatrix dates1 (buildPairs dates1 365 150 perp0) 1 0 =
      if ((buildPairs dates1 365 150 perp0).getD 1 ⟨0, 0, 0, 0⟩).master ≤ 0 ∧
          0 < ((buildPairs dates1 365 150 perp0).getD 1 ⟨0, 0, 0, 0⟩).slave
      then dates1.getD 1 0 - dates1.getD 0 0 else 0 :=
  c6_design_matrix dates1 365 150 perp0 1 0 (by decide) (by decide)

/-- C10.  Invariants of the design matrix of any network built from
sorted dates: every entry is nonnegative (interval durations of a sorted
date list), and the entries of row `k` sum to the temporal baseline of
pair `k`, `dates[slave] - dates[master]` (telescoping). -/
theorem c10_design_row_sum (dates : List ℤ) (maxT : ℤ) (maxP : ℚ)
    (perp : ℕ → ℕ → ℚ) (hs : dates.Sorted (· ≤ ·)) (k : ℕ)
    (hk : k < (buildPairs dates maxT maxP perp).length) :
    (∀ m, 0 ≤ designMatrix dates (buildPairs dates maxT maxP perp) k m) ∧
    (∑ m ∈ Finset.range (dates.length - 1),
        designMatrix dates (buildPairs dates maxT maxP perp) k m) =
      ((buildPairs dates maxT maxP perp).getD k ⟨0, 0, 0, 0⟩).temporal := by
  obtain ⟨hms, hsl, htemp, _, _⟩ :=
    mem_buildPairs (getD_mem_pairs hk ⟨0, 0, 0, 0⟩)
  have hform : ∀ m, designMatrix dates (buildPairs dates maxT maxP perp) k m =
      if ((buildPairs dates maxT maxP perp).getD k ⟨0, 0, 0, 0⟩).master ≤ m ∧
          m < ((buildPairs dates maxT maxP perp).getD k ⟨0, 0, 0, 0⟩).slave
      then dates.getD (m + 1) 0 - dates.getD m 0 else 0 := fun m => by
    rw [designMatrix, if_pos hk, designRow_eq _ _ (le_of_lt hms)]
  constructor
  · intro m
    rw [hform m]
    split_ifs with hc
    · have hm1 : m + 1 < dates.length := by omega
      have := getD_mono_of_sorted hs (show m ≤ m + 1 by omega) hm1
      omega
    · exact le_refl 0
  · have hIco : ∀ m, (((buildPairs dates maxT maxP perp).getD k ⟨0, 0, 0, 0⟩).master ≤ m ∧
        m < ((buildPairs dates maxT maxP perp).getD k ⟨0, 0, 0, 0⟩).slave) ↔
        m ∈ Finset.Ico ((buildPairs dates maxT maxP perp).getD k ⟨0, 0, 0, 0⟩).master
          ((buildPairs dates maxT maxP perp).getD k ⟨0, 0, 0, 0⟩).slave := fun m => by
      rw [Finset.mem_Ico]
    calc (∑ m ∈ Finset.range (dates.length - 1),
            designMatrix dates (buildPairs dates maxT maxP perp) k m)
        = ∑ m ∈ Finset.range (dates.length - 1),
            (if m ∈ Finset.Ico ((buildPairs dates maxT maxP perp).getD k ⟨0, 0, 0, 0⟩).master
                ((buildPairs dates maxT maxP perp).getD k ⟨0, 0, 0, 0⟩).slave
             then dates.getD (m + 1) 0 - dates.getD m 0 else 0) := by
          refine Finset.sum_congr rfl fun m _ => ?_
          rw [hform m]
          simp only [Finset.mem_Ico]
      _ = ∑ m ∈ Finset.Ico ((buildPairs dates maxT maxP perp).getD k ⟨0, 0, 0, 0⟩).master
            ((buildPairs dates maxT maxP perp).getD k ⟨0, 0, 0, 0⟩).slave,
            (dates.getD (m + 1) 0 - dates.getD m 0) := by
          rw [Finset.sum_ite_mem]
          congr 1
          rw [Finset.inter_eq_right]
          intro x hx
          rw [Finset.mem_Ico] at hx
          rw [Finset.mem_range]
          omega
      _ = ((buildPairs dates maxT maxP perp).getD k ⟨0, 0, 0, 0⟩).temporal := by
          rw [Finset.sum_Ico_eq_sub _ (le_of_lt hms), Finset.sum_range_sub
            fun m => dates.getD m 0, Finset.sum_range_sub fun m => dates.getD m 0, htemp]
          ring

/-- C10 (witness).  The invariant instantiated on the 3-date network: the
(0, 2) row has nonnegative first entry and sums to its 59-day baseline. -/
theorem c10_design_row_sum_witness :
    0 ≤ designMatrix dates1 (buildPairs dates1 365 150 perp0) 1 0 ∧
    (∑ m ∈ Finset.range (dates1.length - 1),
        designMatrix dates1 (buildPairs dates1 365 150 perp0) 1 m) =
      ((buildPairs dates1 365 150 perp0).getD 1 ⟨0, 0, 0, 0⟩).temporal :=
  ⟨(c10_design_row_sum dates1 365 150 perp0 (by decide) 1 (by decide)).1 0,
    (c10_design_row_sum dates1 365 150 perp0 (by decide) 1 (by decide)).2⟩

end InSAR

namespace InSAR

/-!
Per-pixel SBAS velocity inversion (`SBASInversion.invert_velocity`).  For
each pixel: gather the stack of unwrapped phases (NaN modelled as `none`);
if fewer than 3 valid observations remain, set `velocity[i, j] = NaN` and
`continue` — leaving the zero-initialised displacement and residual
entries untouched; otherwise solve the weighted Tikhonov-stacked system
`[W A_valid; reg I] x = [W b_valid; 0]` with `np.linalg.lstsq`, accumulate
the increments into a cumulative series anchored at 0, and derive the
mean velocity `ts[-1] / total_days * 365`.  The weights are
`coherence ** 2` and `W = diag(sqrt(weights)) = diag(|coherence|)`.
`np.linalg.lstsq` returns the least-squares solution, which is unique and
equal to `(Aw^T Aw)^{-1} Aw^T b` because the regularisation rows give the
stacked matrix full column rank; the model computes it by Cramer's rule
(adjugate over determinant).  A zero determinant (impossible for nonzero
regularisation) would yield the zero vector under rational
division-by-zero instead of the NumPy minimum-norm solution; no theorem
below depends on that branch.  The residual raster stores
`sqrt(mean((A_valid @ v - b_valid) ** 2))`; the model keeps the mean of
squares (its square), which determines it. -/

/-- Least-squares solution of a stacked row system via normal equations
and Cramer's rule. -/
def solveLS (n : ℕ) (rows : List ((Fin n → ℚ) × ℚ)) : Fin n → ℚ :=
  let M : Matrix (Fin n) (Fin n) ℚ := Matrix.of fun a b => (rows.map fun r => r.1 a * r.1 b).sum
  let v : Fin n → ℚ := fun a => (rows.map fun r => r.1 a * r.2).sum
  fun a => M.adjugate.mulVec v a / M.det

/-- Indices of the valid (non-NaN) observations of one pixel, in stack
order: `valid_mask = ~np.isnan(phase_values)`. -/
def validIdx (nPairs : ℕ) (phases : ℕ → ℕ → ℕ → Option ℚ) (i j : ℕ) : List ℕ :=
  (List.range nPairs).filter fun k => (phases k i j).isSome

/-- Square-root weight of observation `k` at one pixel:
`sqrt(coherence ** 2) = |coherence|`, or 1 without a coherence stack. -/
def sqrtWeight (coh : Option (ℕ → ℕ → ℕ → ℚ)) (k i j : ℕ) : ℚ :=
  match coh with
  | some c => |c k i j|
  | none => 1

/-- Per-pixel solve of the weighted regularised system
`[W A_valid; reg I] x = [W b_valid; 0]`. -/
def pixelSolve (dates : List ℤ) (pairs : List NPair)
    (phases : ℕ → ℕ → ℕ → Option ℚ) (coh : Option (ℕ → ℕ → ℕ → ℚ))
    (reg : ℚ) (i j : ℕ) : Fin (dates.length - 1) → ℚ :=
  solveLS (dates.length - 1)
    (((validIdx pairs.length phases i j).map fun k =>
        (fun m : Fin (dates.length - 1) =>
            sqrtWeight coh k i j * (designMatrix dates pairs k m : ℚ),
          sqrtWeight coh k i j * (phases k i j).getD 0)) ++
      ((List.range (dates.length - 1)).map fun m0 =>
        ((fun m : Fin (dates.length - 1) => if (m : ℕ) = m0 then reg else 0), (0 : ℚ))))

/-- Outputs of `invert_velocity`: completion flag of the returned record
(`"status": "completed"`), velocity raster (`none` = NaN), displacement
time series (layer, row, column) and the squared residual raster. -/
structure InvResult where
  completed : Bool
  velocity : ℕ → ℕ → Option ℚ
  dispTs : ℕ → ℕ → ℕ → Option ℚ
  residSq : ℕ → ℕ → ℚ

/-- Model of `SBASInversion.invert_velocity`.  Displacement layer `t`
holds the cumulative sum of the first `t` solved increments (layer 0 is
the anchored zero); skipped pixels keep the `np.zeros` initialisation in
the displacement/residual rasters and NaN in velocity. -/
def invertVelocity (dates : List ℤ) (pairs : List NPair)
    (phases : ℕ → ℕ → ℕ → Option ℚ) (coh : Option (ℕ → ℕ → ℕ → ℚ))
    (reg : ℚ) : InvResult :=
  let totalDays : ℤ := dates.getD (dates.length - 1) 0 - dates.getD 0 0
  { completed := true
    velocity := fun i j =>
      if (validIdx pairs.length phases i j).length < 3 then none
      else
        some ((∑ m : Fin (dates.length - 1),
            pixelSolve dates pairs phases coh reg i j m) /
          (totalDays : ℚ) * 365)
    dispTs := fun t i j =>
      if (validIdx pairs.length phases i j).length < 3 then some 0
      else
        some (∑ m ∈ Finset.univ.filter fun m : Fin (dates.length - 1) => (m : ℕ) < t,
          pixelSolve dates pairs phases coh reg i j m)
    residSq := fun i j =>
      if (validIdx pairs.length phases i j).length < 3 then 0
      else
        ((validIdx pairs.length phases i j).map fun k =>
            ((∑ m : Fin (dates.length - 1), (designMatrix dates pairs k m : ℚ) *
                pixelSolve dates pairs phases coh reg i j m) -
              (phases k i j).getD 0) ^ 2).sum /
          (validIdx pairs.length phases i j).length }

/-- C3 (counterexample).  A pixel of the 3-pair stack whose observations
are all NaN is skipped: the velocity raster holds NaN, but the
displacement time series keeps its zero initialisation (0.0, a regular
float) instead of being marked NaN, while the run still completes. -/
theorem c3_skip_counterexample :
    (invertVelocity dates1 (buildPairs dates1 365 150 perp0)
        (fun _ _ _ => none) none (1 / 100)).velocity 0 0 = none ∧
    (invertVelocity dates1 (buildPairs dates1 365 150 perp0)
        (fun _ _ _ => none) none (1 / 100)).dispTs 1 0 0 = some 0 ∧
    (invertVelocity dates1 (buildPairs dates1 365 150 perp0)
        (fun _ _ _ => none) none (1 / 100)).completed = true := by
  have hv : (validIdx (buildPairs dates1 365 150 perp0).length
      (fun _ _ _ => (none : Option ℚ)) 0 0).length < 3 := by decide
  refine ⟨?_, ?_, ?_⟩ <;> simp [invertVelocity, hv]

/-- C3 (amended).  For every stack and every pixel with fewer than 3
valid observations, inversion marks the pixel NaN in the velocity raster,
leaves every displacement-time-series layer at its zero initialisation
(not NaN), and the run as a whole completes. -/
theorem c3_insufficient_observations (dates : List ℤ) (pairs : List NPair)
    (phases : ℕ → ℕ → ℕ → Option ℚ) (coh : Option (ℕ → ℕ → ℕ → ℚ))
    (reg : ℚ) (i j : ℕ)
    (hv : (validIdx pairs.length phases i j).length < 3) :
    (invertVelocity dates pairs phases coh reg).velocity i j = none ∧
    (∀ t, (invertVelocity dates pairs phases coh reg).dispTs t i j = some 0) ∧
    (invertVelocity dates pairs phases coh reg).completed = true := by
  refine ⟨?_, fun t => ?_, ?_⟩ <;> simp [invertVelocity, hv]

/-- C3 (witness).  The amended skip law applied to a pixel with a single
valid observation out of three. -/
theorem c3_insufficient_observations_witness :
    (invertVelocity dates1 (buildPairs dates1 365 150 perp0)
        (fun k _ _ => if k = 0 then some 1 else none) none (1 / 100)).velocity 0 0 = none ∧
    (invertVelocity dates1 (buildPairs dates1 365 150 perp0)
        (fun k _ _ => if k = 0 then some 1 else none) none (1 / 100)).dispTs 2 0 0 = some 0 ∧
    (invertVelocity dates1 (buildPairs dates1 365 150 perp0)
        (fun k _ _ => if k = 0 then some 1 else none) none (1 / 100)).completed = true := by
  have hmain := c3_insufficient_observations dates1 (buildPairs dates1 365 150 perp0)
    (fun k _ _ => if k = 0 then some 1 else none) none (1 / 100) 0 0 (by decide)
  exact ⟨hmain.1, hmain.2.1 2, hmain.2.2⟩

end InSAR

namespace InSAR

/-!
Coherence estimator `SARProcessor._compute_coherence` (sar_algorithms.py):

  numerator   = |uniform_filter(conj(ref) * sec)|
  denominator = sqrt(uniform_filter(|ref|^2) * uniform_filter(|sec|^2))
  coherence   = np.divide(numerator, denominator, where denominator != 0,
                          out = zeros), then np.clip(coherence, 0, 1)

Complex samples are modelled exactly as pairs of rationals.  Since the
square root is the only irrational step and `t -> t^2` is an order
isomorphism of the nonnegative reals, the model tracks the SQUARE of
every magnitude: `cohSq = coherence^2`, `cohDenSq = denominator^2` (the
denominator is a square root of a nonnegative product, so it vanishes iff
its square does, and clipping to [0, 1] commutes with squaring on
nonnegative values).  Membership of coherence in [0, 1], vanishing at
zero denominators, and equality with 1.0 transfer verbatim through this
square.  `scipy.ndimage.uniform_filter` is the reflect-padded boxcar mean
with window offsets `-(size/2) .. size - 1 - size/2` applied separately
to the real and imaginary parts.
-/

/-- Complex sample with exact rational parts. -/
structure Cq where
  re : ℚ
  im : ℚ
  deriving DecidableEq

/-- Complex product. -/
def Cq.mul (z w : Cq) : Cq :=
  ⟨z.re * w.re - z.im * w.im, z.re * w.im + z.im * w.re⟩

/-- Complex conjugate. -/
def Cq.conj (z : Cq) : Cq := ⟨z.re, -z.im⟩

/-- Squared magnitude `|z|^2`. -/
def Cq.normSq (z : Cq) : ℚ := z.re ^ 2 + z.im ^ 2

/-- Reflect-padded boxcar mean of window size `s`
(`scipy.ndimage.uniform_filter`, mode `reflect`, origin 0: offsets run
from `-(s / 2)` to `s - 1 - s / 2`). -/
def ufQ (s h w : ℕ) (f : ℕ → ℕ → ℚ) (i j : ℕ) : ℚ :=
  (∑ a ∈ Finset.range s, ∑ b ∈ Finset.range s,
      f (reflectIdx h ((i : ℤ) + a - (s / 2 : ℕ)))
        (reflectIdx w ((j : ℤ) + b - (s / 2 : ℕ)))) / ((s : ℚ) * s)

/-- Componentwise uniform filter of a complex raster. -/
def ufC (s h w : ℕ) (f : ℕ → ℕ → Cq) (i j : ℕ) : Cq :=
  ⟨ufQ s h w (fun a b => (f a b).re) i j, ufQ s h w (fun a b => (f a b).im) i j⟩

/-- Squared numerator `|uniform_filter(conj(ref) * sec)|^2`. -/
def cohNumSq (s h w : ℕ) (ref sec : ℕ → ℕ → Cq) (i j : ℕ) : ℚ :=
  Cq.normSq (ufC s h w (fun a b => Cq.mul (Cq.conj (ref a b)) (sec a b)) i j)

/-- Squared denominator
`uniform_filter(|ref|^2) * uniform_filter(|sec|^2)`. -/
def cohDenSq (s h w : ℕ) (ref sec : ℕ → ℕ → Cq) (i j : ℕ) : ℚ :=
  ufQ s h w (fun a b => Cq.normSq (ref a b)) i j *
    ufQ s h w (fun a b => Cq.normSq (sec a b)) i j

/-- Clip to the unit interval, `np.clip(x, 0, 1)`. -/
def clip01 (x : ℚ) : ℚ := min 1 (max 0 x)

/-- Squared coherence of `_compute_coherence`: guarded division (zero
where the denominator vanishes) followed by clipping. -/
def cohSq (s h w : ℕ) (ref sec : ℕ → ℕ → Cq) (i j : ℕ) : ℚ :=
  clip01 (if cohDenSq s h w ref sec i j = 0 then 0
    else cohNumSq s h w ref sec i j / cohDenSq s h w ref sec i j)

/-- C7.  For every pair of equally shaped complex rasters the computed
coherence lies in [0, 1] at every pixel, is 0 wherever the windowed
denominator vanishes, and equals 1.0 at every pixel with nonzero
denominator when reference and secondary coincide (all three statements
tracked through the square of the coherence, which determines them). -/
theorem c7_coherence (s h w : ℕ) (ref sec : ℕ → ℕ → Cq) (i j : ℕ) :
    (0 ≤ cohSq s h w ref sec i j ∧ cohSq s h w ref sec i j ≤ 1) ∧
    (cohDenSq s h w ref sec i j = 0 → cohSq s h w ref sec i j = 0) ∧
    (ref = sec → cohDenSq s h w ref sec i j ≠ 0 →
      cohSq s h w ref sec i j = 1) := by
  refine ⟨⟨?_, ?_⟩, ?_, ?_⟩
  · exact le_min (by norm_num) (le_max_left 0 _)
  · exact min_le_left _ _
  · intro hden
    rw [cohSq, if_pos hden]
    norm_num [clip01]
  · intro hrs hden
    subst hrs
    have hzz : (fun a b => Cq.mul (Cq.conj (ref a b)) (ref a b)) =
        fun a b => Cq.mk (Cq.normSq (ref a b)) 0 := by
      funext a b
      simp only [Cq.mul, Cq.conj, Cq.normSq, Cq.mk.injEq]
      constructor <;> ring
    have hre : ufC s h w (fun a b => Cq.mk (Cq.normSq (ref a b)) 0) i j =
        Cq.mk (ufQ s h w (fun a b => Cq.normSq (ref a b)) i j) 0 := by
      rw [ufC, Cq.mk.injEq]
      exact ⟨rfl, by simp [ufQ]⟩
    have hkey : cohNumSq s h w ref ref i j = cohDenSq s h w ref ref i j := by
      rw [cohNumSq, cohDenSq, hzz, hre]
      simp only [Cq.normSq]
      ring
    rw [cohSq, if_neg hden, hkey, div_self hden]
    norm_num [clip01]

/-- Constant unit raster used to instantiate witnesses. -/
def cOne : ℕ → ℕ → Cq := fun _ _ => ⟨1, 0⟩

/-- C7 (witness).  Identical unit rasters with window size 1 on a 1x1
grid: the denominator is 1 and the coherence equals 1. -/
theorem c7_coherence_witness :
    cohDenSq 1 1 1 cOne cOne 0 0 ≠ 0 ∧ cohSq 1 1 1 cOne cOne 0 0 = 1 := by
  have hden : cohDenSq 1 1 1 cOne cOne 0 0 ≠ 0 := by
    norm_num [cohDenSq, ufQ, Cq.normSq, cOne, reflectIdx_one, Finset.sum_range_succ]
  exact ⟨hden, (c7_coherence 1 1 1 cOne cOne 0 0).2.2 rfl hden⟩

end InSAR

namespace InSAR

/-!
Offset estimator `SARProcessor._estimate_offset` (sar_algorithms.py).
The source restricts both rasters to the leading
`window_size x window_size` block and computes
`cross_corr = np.abs(ifft2(fft2(ref) * np.conj(fft2(sec))))`; by the
convolution theorem this inverse transform is EXACTLY the circular
cross-correlation `cc[d] = sum_x ref[x] * conj(sec[(x - d) mod w])`, which
is what the model computes (exact complex arithmetic in the spatial
domain; a fast transform is only an evaluation strategy for the same
function).  `np.argmax` returns the first row-major index attaining the
maximum; the model folds over the row-major index list keeping the
earliest strict maximum of the SQUARED magnitude, which has the same
argmax and the same ties as the magnitude itself since squaring is
strictly monotone on nonnegative reals.  The peak index is folded into
the signed range by `p if p < w // 2 else p - w`, and
`_apply_offset` realigns by `np.roll`.  The correlation confidence
(`peak / sum of magnitudes`) is a sum of square roots and is not part of
the modelled output.
-/

/-- Periodized raster access: entry at `(a mod w, b mod w)`. -/
def refZ (w : ℕ) (f : ℕ → ℕ → Cq) (a b : ℤ) : Cq :=
  f ((a % w).toNat) ((b % w).toNat)

/-- Cyclic shift `np.roll(f, (r, c), axis=(0, 1))`:
`out[i, j] = f[(i - r) mod w, (j - c) mod w]`. -/
def rollM (w : ℕ) (f : ℕ → ℕ → Cq) (r c : ℤ) : ℕ → ℕ → Cq :=
  fun i j => refZ w f ((i : ℤ) - r) ((j : ℤ) - c)

/-- Real part of the circular cross-correlation
`sum_x ref[x] * conj(sec[x - d])`. -/
def ccRe (w : ℕ) (ref sec : ℕ → ℕ → Cq) (d1 d2 : ℤ) : ℚ :=
  ∑ x ∈ Finset.range w, ∑ y ∈ Finset.range w,
    ((ref x y).re * (refZ w sec ((x : ℤ) - d1) ((y : ℤ) - d2)).re +
      (ref x y).im * (refZ w sec ((x : ℤ) - d1) ((y : ℤ) - d2)).im)

/-- Imaginary part of the circular cross-correlation. -/
def ccIm (w : ℕ) (ref sec : ℕ → ℕ → Cq) (d1 d2 : ℤ) : ℚ :=
  ∑ x ∈ Finset.range w, ∑ y ∈ Finset.range w,
    ((ref x y).im * (refZ w sec ((x : ℤ) - d1) ((y : ℤ) - d2)).re -
      (ref x y).re * (refZ w sec ((x : ℤ) - d1) ((y : ℤ) - d2)).im)

/-- Squared magnitude of the cross-correlation surface at lag `(d1, d2)`. -/
def crossCorrSq (w : ℕ) (ref sec : ℕ → ℕ → Cq) (d1 d2 : ℤ) : ℚ :=
  ccRe w ref sec d1 d2 ^ 2 + ccIm w ref sec d1 d2 ^ 2

/-- Row-major enumeration of the `w x w` lag grid, the scan order of
`np.argmax` over the correlation surface. -/
def rowMajor (w : ℕ) : List (ℕ × ℕ) :=
  ((List.range w).map fun i => (List.range w).map fun j => (i, j)).flatten

/-- Left fold keeping the first strict maximum, the behaviour of
`np.argmax` under ties. -/
def argmaxFold (f : ℕ × ℕ → ℚ) (l : List (ℕ × ℕ)) (a0 : ℕ × ℕ) : ℕ × ℕ :=
  l.foldl (fun b p => if f b < f p then p else b) a0

/-- First row-major argmax of a lag-indexed surface. -/
def argmaxRM (w : ℕ) (f : ℕ → ℕ → ℚ) : ℕ × ℕ :=
  match rowMajor w with
  | [] => (0, 0)
  | a :: t => argmaxFold (fun p => f p.1 p.2) t a

/-- Fold of a peak index into the signed range:
`p if p < w // 2 else p - w`. -/
def foldOffset (w p : ℕ) : ℤ := if p < w / 2 then (p : ℤ) else (p : ℤ) - w

/-- Offset estimate of `_estimate_offset` (integer part): the row-major
argmax of the cross-correlation magnitude, folded into signed range. -/
def estimateOffset (w : ℕ) (ref sec : ℕ → ℕ → Cq) : ℤ × ℤ :=
  (foldOffset w (argmaxRM w fun d1 d2 => crossCorrSq w ref sec d1 d2).1,
    foldOffset w (argmaxRM w fun d1 d2 => crossCorrSq w ref sec d1 d2).2)

theorem mem_rowMajor {w : ℕ} {p : ℕ × ℕ} :
    p ∈ rowMajor w ↔ p.1 < w ∧ p.2 < w := by
  simp only [rowMajor, List.mem_flatten, List.mem_map, List.mem_range]
  constructor
  · rintro ⟨l, ⟨i, hi, rfl⟩, hpl⟩
    obtain ⟨j, hj, rfl⟩ := List.mem_map.mp hpl
    exact ⟨hi, List.mem_range.mp hj⟩
  · rintro ⟨h1, h2⟩
    refine ⟨(List.range w).map fun j => (p.1, j), ⟨p.1, h1, rfl⟩, ?_⟩
    exact List.mem_map.mpr ⟨p.2, List.mem_range.mpr h2, by simp⟩

theorem argmaxFold_mem (f : ℕ × ℕ → ℚ) :
    ∀ (l : List (ℕ × ℕ)) (a0 : ℕ × ℕ), argmaxFold f l a0 ∈ a0 :: l := by
  intro l
  induction l with
  | nil => intro a0; simp [argmaxFold]
  | cons p t ih =>
      intro a0
      have hstep : argmaxFold f (p :: t) a0 =
          argmaxFold f t (if f a0 < f p then p else a0) := rfl
      rw [hstep]
      have hmem := ih (if f a0 < f p then p else a0)
      rcases List.mem_cons.mp hmem with h | h
      · rw [h]
        by_cases hc : f a0 < f p <;> simp [hc]
      · simp [List.mem_cons.mpr (Or.inr (List.mem_cons.mpr (Or.inr h)))]

theorem argmaxFold_le (f : ℕ × ℕ → ℚ) :
    ∀ (l : List (ℕ × ℕ)) (a0 y : ℕ × ℕ), y ∈ a0 :: l →
      f y ≤ f (argmaxFold f l a0) := by
  intro l
  induction l with
  | nil =>
      intro a0 y hy
      rcases List.mem_cons.mp hy with h | h
      · rw [h]; exact le_refl _
      · cases h
  | cons p t ih =>
      intro a0 y hy
      have hstep : argmaxFold f (p :: t) a0 =
          argmaxFold f t (if f a0 < f p then p else a0) := rfl
      rw [hstep]
      have ha1 : f a0 ≤ f (if f a0 < f p then p else a0) := by
        by_cases hc : f a0 < f p <;> simp [hc]
        exact le_of_lt hc
      have hp1 : f p ≤ f (if f a0 < f p then p else a0) := by
        by_cases hc : f a0 < f p <;> simp [hc]
        exact le_of_not_lt hc
      have hhead := ih (if f a0 < f p then p else a0) _
        (List.mem_cons.mpr (Or.inl rfl))
      rcases List.mem_cons.mp hy with h | h
      · rw [h]; exact le_trans ha1 hhead
      · rcases List.mem_cons.mp h with h2 | h2
        · rw [h2]; exact le_trans hp1 hhead
        · exact ih _ y (List.mem_cons.mpr (Or.inr h2))

theorem argmaxFold_unique (f : ℕ × ℕ → ℚ) (l : List (ℕ × ℕ)) (a0 x : ℕ × ℕ)
    (hx : x ∈ a0 :: l) (hmax : ∀ y ∈ a0 :: l, y ≠ x → f y < f x) :
    argmaxFold f l a0 = x := by
  by_contra hne
  have hr := argmaxFold_mem f l a0
  have hlt := hmax _ hr hne
  have hle := argmaxFold_le f l a0 x hx
  exact absurd hle (not_le.mpr hlt)

theorem argmaxRM_eq (w : ℕ) (hw : 0 < w) (f : ℕ → ℕ → ℚ) (t1 t2 : ℕ)
    (ht1 : t1 < w) (ht2 : t2 < w)
    (hmax : ∀ p1 p2 : ℕ, p1 < w → p2 < w → (p1, p2) ≠ (t1, t2) →
      f p1 p2 < f t1 t2) :
    argmaxRM w f = (t1, t2) := by
  rw [argmaxRM]
  cases hrm : rowMajor w with
  | nil =>
      exfalso
      have : ((0, 0) : ℕ × ℕ) ∈ rowMajor w := mem_rowMajor.mpr ⟨hw, hw⟩
      rw [hrm] at this
      cases this
  | cons a t =>
      refine argmaxFold_unique _ t a (t1, t2) ?_ ?_
      · rw [← hrm]
        exact mem_rowMajor.mpr ⟨ht1, ht2⟩
      · intro y hy hne
        rw [← hrm] at hy
        obtain ⟨hy1, hy2⟩ := mem_rowMajor.mp hy
        exact hmax y.1 y.2 hy1 hy2 (by simpa using hne)

end InSAR

namespace InSAR

theorem refZ_congr (w : ℕ) (f : ℕ → ℕ → Cq) {a a2 b b2 : ℤ}
    (ha : a % w = a2 % w) (hb : b % w = b2 % w) :
    refZ w f a b = refZ w f a2 b2 := by
  rw [refZ, refZ, ha, hb]

theorem refZ_rollM (w : ℕ) (hw : 0 < w) (f : ℕ → ℕ → Cq) (r c a b : ℤ) :
    refZ w (rollM w f r c) a b = refZ w f (a - r) (b - c) := by
  have hwz : (w : ℤ) ≠ 0 := by exact_mod_cast hw.ne'
  have hta : ((a % w).toNat : ℤ) = a % w := Int.toNat_of_nonneg (Int.emod_nonneg a hwz)
  have htb : ((b % w).toNat : ℤ) = b % w := Int.toNat_of_nonneg (Int.emod_nonneg b hwz)
  show refZ w f (((a % w).toNat : ℤ) - r) (((b % w).toNat : ℤ) - c) = _
  apply refZ_congr
  · calc (((a % w).toNat : ℤ) - r) % w
        = ((a % w) % w - r % w) % w := by rw [hta, Int.sub_emod]
      _ = (a % w - r % w) % w := by rw [Int.emod_emod_of_dvd a dvd_rfl]
      _ = (a - r) % w := by rw [← Int.sub_emod]
  · calc (((b % w).toNat : ℤ) - c) % w
        = ((b % w) % w - c % w) % w := by rw [htb, Int.sub_emod]
      _ = (b % w - c % w) % w := by rw [Int.emod_emod_of_dvd b dvd_rfl]
      _ = (b - c) % w := by rw [← Int.sub_emod]

theorem crossCorrSq_congr (w : ℕ) (ref sec : ℕ → ℕ → Cq) {d1 d1a d2 d2a : ℤ}
    (h1 : d1 % w = d1a % w) (h2 : d2 % w = d2a % w) :
    crossCorrSq w ref sec d1 d2 = crossCorrSq w ref sec d1a d2a := by
  have hx : ∀ x y : ℕ, refZ w sec ((x : ℤ) - d1) ((y : ℤ) - d2) =
      refZ w sec ((x : ℤ) - d1a) ((y : ℤ) - d2a) := fun x y =>
    refZ_congr w sec (by rw [Int.sub_emod, h1, ← Int.sub_emod])
      (by rw [Int.sub_emod, h2, ← Int.sub_emod])
  simp only [crossCorrSq, ccRe, ccIm, hx]

/-- Cross-correlating against a cyclically rolled copy translates the
correlation surface by the roll amount. -/
theorem crossCorrSq_rollM (w : ℕ) (hw : 0 < w) (ref : ℕ → ℕ → Cq)
    (r c d1 d2 : ℤ) :
    crossCorrSq w ref (rollM w ref r c) d1 d2 =
      crossCorrSq w ref ref (d1 + r) (d2 + c) := by
  have hx : ∀ x y : ℕ, refZ w (rollM w ref r c) ((x : ℤ) - d1) ((y : ℤ) - d2) =
      refZ w ref ((x : ℤ) - (d1 + r)) ((y : ℤ) - (d2 + c)) := fun x y => by
    rw [refZ_rollM w hw]
    congr 1 <;> ring
  simp only [crossCorrSq, ccRe, ccIm, hx]

/-- C8 (amended).  Suppose the reference window has a strictly dominant
circular autocorrelation peak at zero lag (true for generic imagery;
false for degenerate inputs such as constant rasters — see the
counterexample).  Then for every target offset `(dr, dc)` in the signed
range `[w/2 - w, w/2)` (which is `[-w/2, w/2)` for even window sizes, as
in the claim) and a secondary that is the reference cyclically shifted so
that rolling it by `(dr, dc)` — as `_apply_offset` does — realigns it
with the reference (`sec = np.roll(ref, (-dr, -dc))`), the estimator
returns exactly `(dr, dc)`.  The correlation-confidence clause of the
claim ("near 1.0") is not a formal predicate and is not modelled. -/
theorem c8_offset_amended (w : ℕ) (hw : 0 < w) (ref : ℕ → ℕ → Cq) (dr dc : ℤ)
    (hdr1 : ((w / 2 : ℕ) : ℤ) - w ≤ dr) (hdr2 : dr < ((w / 2 : ℕ) : ℤ))
    (hdc1 : ((w / 2 : ℕ) : ℤ) - w ≤ dc) (hdc2 : dc < ((w / 2 : ℕ) : ℤ))
    (hpeak : ∀ e1 e2 : ℕ, e1 < w → e2 < w → (e1, e2) ≠ (0, 0) →
      crossCorrSq w ref ref e1 e2 < crossCorrSq w ref ref 0 0) :
    estimateOffset w ref (rollM w ref (-dr) (-dc)) = (dr, dc) := by
  have hwz : (w : ℤ) ≠ 0 := by exact_mod_cast hw.ne'
  have hwp : (0 : ℤ) < w := by exact_mod_cast hw
  have hta : (((dr % w).toNat : ℕ) : ℤ) = dr % w :=
    Int.toNat_of_nonneg (Int.emod_nonneg dr hwz)
  have htb : (((dc % w).toNat : ℕ) : ℤ) = dc % w :=
    Int.toNat_of_nonneg (Int.emod_nonneg dc hwz)
  have hdrw : dr % w < w := Int.emod_lt_of_pos dr hwp
  have hdcw : dc % w < w := Int.emod_lt_of_pos dc hwp
  have ht1w : (dr % w).toNat < w := by omega
  have ht2w : (dc % w).toNat < w := by omega
  have hsurf : ∀ p1 p2 : ℤ,
      crossCorrSq w ref (rollM w ref (-dr) (-dc)) p1 p2 =
        crossCorrSq w ref ref (p1 - dr) (p2 - dc) := fun p1 p2 => by
    rw [crossCorrSq_rollM w hw]
    congr 1
  have hper : ∀ d : ℤ, ((((d % w).toNat : ℕ) : ℤ) % w) = d % w := fun d => by
    rw [Int.toNat_of_nonneg (Int.emod_nonneg d hwz), Int.emod_emod_of_dvd d dvd_rfl]
  have hpeakzero :
      crossCorrSq w ref ref (((dr % w).toNat : ℤ) - dr) (((dc % w).toNat : ℤ) - dc) =
        crossCorrSq w ref ref 0 0 := by
    apply crossCorrSq_congr
    · calc (((dr % w).toNat : ℤ) - dr) % w
          = ((dr % w) % w - dr % w) % w := by rw [hta, Int.sub_emod]
        _ = 0 % w := by rw [Int.emod_emod_of_dvd dr dvd_rfl, sub_self]
    · calc (((dc % w).toNat : ℤ) - dc) % w
          = ((dc % w) % w - dc % w) % w := by rw [htb, Int.sub_emod]
        _ = 0 % w := by rw [Int.emod_emod_of_dvd dc dvd_rfl, sub_self]
  have hmax : ∀ p1 p2 : ℕ, p1 < w → p2 < w →
      (p1, p2) ≠ ((dr % w).toNat, (dc % w).toNat) →
      crossCorrSq w ref (rollM w ref (-dr) (-dc)) p1 p2 <
        crossCorrSq w ref (rollM w ref (-dr) (-dc)) ((dr % w).toNat) ((dc % w).toNat) := by
    intro p1 p2 hp1 hp2 hne
    rw [hsurf, hsurf, hpeakzero]
    have he1 : ((((((p1 : ℤ) - dr) % w).toNat : ℕ) : ℤ) % w) = ((p1 : ℤ) - dr) % w :=
      hper _
    have he2 : ((((((p2 : ℤ) - dc) % w).toNat : ℕ) : ℤ) % w) = ((p2 : ℤ) - dc) % w :=
      hper _
    have hrw : crossCorrSq w ref ref ((p1 : ℤ) - dr) ((p2 : ℤ) - dc) =
        crossCorrSq w ref ref (((((p1 : ℤ) - dr) % w).toNat : ℕ) : ℤ)
          (((((p2 : ℤ) - dc) % w).toNat : ℕ) : ℤ) :=
      crossCorrSq_congr w ref ref he1.symm he2.symm
    rw [hrw]
    apply hpeak
    · have := Int.emod_lt_of_pos ((p1 : ℤ) - dr) hwp
      have := Int.emod_nonneg ((p1 : ℤ) - dr) hwz
      omega
    · have := Int.emod_lt_of_pos ((p2 : ℤ) - dc) hwp
      have := Int.emod_nonneg ((p2 : ℤ) - dc) hwz
      omega
    · intro hzero
      apply hne
      have hz1 : (((p1 : ℤ) - dr) % w).toNat = 0 := (Prod.mk.injEq _ _ _ _).mp hzero |>.1
      have hz2 : (((p2 : ℤ) - dc) % w).toNat = 0 := (Prod.mk.injEq _ _ _ _).mp hzero |>.2
      have hz1i : ((p1 : ℤ) - dr) % w = 0 := by
        have := Int.emod_nonneg ((p1 : ℤ) - dr) hwz
        omega
      have hz2i : ((p2 : ℤ) - dc) % w = 0 := by
        have := Int.emod_nonneg ((p2 : ℤ) - dc) hwz
        omega
      have hm1 : (p1 : ℤ) % w = dr % w :=
        Int.emod_eq_emod_iff_emod_sub_eq_zero.mpr hz1i
      have hm2 : (p2 : ℤ) % w = dc % w :=
        Int.emod_eq_emod_iff_emod_sub_eq_zero.mpr hz2i
      have hp1m : (p1 : ℤ) % w = p1 := Int.emod_eq_of_lt (by omega) (by omega)
      have hp2m : (p2 : ℤ) % w = p2 := Int.emod_eq_of_lt (by omega) (by omega)
      have : p1 = (dr % w).toNat := by omega
      have : p2 = (dc % w).toNat := by omega
      simp_all
  have harg : argmaxRM w
      (fun d1 d2 => crossCorrSq w ref (rollM w ref (-dr) (-dc)) d1 d2) =
      ((dr % w).toNat, (dc % w).toNat) := by
    apply argmaxRM_eq w hw _ _ _ ht1w ht2w
    intro p1 p2 hp1 hp2 hne
    exact hmax p1 p2 hp1 hp2 hne
  rw [estimateOffset, harg]
  have hfold1 : foldOffset w (dr % w).toNat = dr := by
    rw [foldOffset]
    rcases le_or_lt 0 dr with hpos | hneg
    · have hmod : dr % w = dr := Int.emod_eq_of_lt hpos (by omega)
      have hc : (dr % w).toNat < w / 2 := by omega
      rw [if_pos hc]
      omega
    · have hself : (dr + w) % w = dr % w := by simp
      have hmod : dr % w = dr + w := by
        have h0 : 0 ≤ dr + w := by omega
        have h1 : dr + w < w := by omega
        have : (dr + w) % w = dr + w := Int.emod_eq_of_lt h0 h1
        omega
      have hc : ¬((dr % w).toNat < w / 2) := by omega
      rw [if_neg hc]
      omega
  have hfold2 : foldOffset w (dc % w).toNat = dc := by
    rw [foldOffset]
    rcases le_or_lt 0 dc with hpos | hneg
    · have hmod : dc % w = dc := Int.emod_eq_of_lt hpos (by omega)
      have hc : (dc % w).toNat < w / 2 := by omega
      rw [if_pos hc]
      omega
    · have hself : (dc + w) % w = dc % w := by simp
      have hmod : dc % w = dc + w := by
        have h0 : 0 ≤ dc + w := by omega
        have h1 : dc + w < w := by omega
        have : (dc + w) % w = dc + w := Int.emod_eq_of_lt h0 h1
        omega
      have hc : ¬((dc % w).toNat < w / 2) := by omega
      rw [if_neg hc]
      omega
  rw [hfold1, hfold2]

end InSAR

namespace InSAR

/-- Impulse window: a single unit sample at the origin, an image with a
strictly dominant autocorrelation peak. -/
def cImp : ℕ → ℕ → Cq := fun i j => if i = 0 ∧ j = 0 then ⟨1, 0⟩ else ⟨0, 0⟩

/-- C8 (counterexample).  The estimator does not recover the offset for
every reference image: a constant raster has a flat correlation surface,
so `np.argmax` picks the first lag (0, 0) whatever the true shift.  With
window size 2, the constant unit raster and its copy cyclically shifted
by the in-range offset (-1, 0), the estimator returns (0, 0), not
(-1, 0). -/
theorem c8_offset_counterexample :
    estimateOffset 2 cOne (rollM 2 cOne 1 0) = (0, 0) ∧
    estimateOffset 2 cOne (rollM 2 cOne 1 0) ≠ (-1, 0) := by
  have hroll : rollM 2 cOne 1 0 = cOne := rfl
  have hval : ∀ d1 d2 : ℤ, crossCorrSq 2 cOne cOne d1 d2 = 16 := fun d1 d2 => by
    norm_num [crossCorrSq, ccRe, ccIm, Finset.sum_range_succ, refZ, cOne]
  have hrm : rowMajor 2 = [(0, 0), (0, 1), (1, 0), (1, 1)] := by decide
  have harg : argmaxRM 2 (fun d1 d2 => crossCorrSq 2 cOne cOne d1 d2) = (0, 0) := by
    simp only [argmaxRM]
    rw [hrm]
    simp [argmaxFold, hval]
  have hmain : estimateOffset 2 cOne (rollM 2 cOne 1 0) = (0, 0) := by
    rw [hroll, estimateOffset, harg]
    decide
  exact ⟨hmain, by rw [hmain]; decide⟩

/-- C8 (witness).  The amended recovery law on the impulse window of size
2 at the shift (-1, 0): rolling the shifted secondary by (-1, 0) restores
the reference, and the estimator returns exactly (-1, 0). -/
theorem c8_offset_amended_witness :
    estimateOffset 2 cImp (rollM 2 cImp 1 0) = (-1, 0) := by
  have hpeak : ∀ e1 e2 : ℕ, e1 < 2 → e2 < 2 → (e1, e2) ≠ (0, 0) →
      crossCorrSq 2 cImp cImp e1 e2 < crossCorrSq 2 cImp cImp 0 0 := by
    intro e1 e2 h1 h2 hne
    interval_cases e1 <;> interval_cases e2 <;>
      first
        | exact absurd rfl hne
        | norm_num [crossCorrSq, ccRe, ccIm, Finset.sum_range_succ, refZ, cImp]
  have h := c8_offset_amended 2 (by norm_num) cImp (-1) 0 (by norm_num) (by norm_num)
    (by norm_num) (by norm_num) hpeak
  have harg : rollM 2 cImp (-(-1) : ℤ) (-0 : ℤ) = rollM 2 cImp 1 0 := by norm_num
  rw [harg] at h
  exact h

end InSAR
